import Mathlib

/-!
Verification of the route-planning core of Smart-Subway-Navigator
(src/SubwayNYC.cpp): a transfer-aware Dijkstra variant over a labeled
multigraph, shallowly embedded in Lean.

Modelling conventions, matching the C++ source:
* `adjList : unordered_map<string, vector<Edge>>` is an association list
  `List (String × List Edge)`; only the per-station edge order matters to
  the algorithm (the map is iterated only to initialize distances, with a
  single constant value), so association-list order is an admissible model
  of the unordered map.
* C++ `operator[]` on `dist`/`parent` value-initializes absent keys
  (`int` to `0`, pair-of-strings to `("","")`).  `dist` and `parent` are
  never iterated, so a read of an absent key is modelled by a total
  function returning the default; `adjList`'s `operator[]` insertion in
  the search loop is modelled explicitly (`adjGetI`) because the map's
  final contents are observable.
* `std::priority_queue` with `greater<Node>` pops a minimum-cost entry;
  its tie order among equal costs is unspecified, and is refined here to
  "leftmost minimal element" (`popMin`).  No proof below depends on the
  tie choice beyond the minimality property.
* C++ `int` is modelled as unbounded `Int` with the sentinel
  `INT_MAX = 2147483647`; signed overflow (undefined behaviour in the
  source) is not modelled.
* The two `while` loops are modelled with an explicit fuel parameter;
  a `none` result means the fuel was exhausted, so `∀ fuel, ... = none`
  expresses nontermination and a `some` result is the value the C++
  code returns.
-/

/-- Edge of the subway graph, from struct Edge in SubwayNYC.cpp:
destination station, travel cost, and subway line label. -/
structure Edge where
  destination : String
  cost : Int
  line : String
deriving DecidableEq

/-- The adjacency list of class Graph: station name -> list of edges. -/
abbrev AdjList := List (String × List Edge)

/-- Reading the edge list of a station (no insertion; an absent key reads
as the empty edge list). -/
def lookupEdges : AdjList → String → List Edge
  | [], _ => []
  | (k, es) :: rest, x => if k = x then es else lookupEdges rest x

/-- Whether a station is a key of the adjacency map. -/
def isKey : AdjList → String → Bool
  | [], _ => false
  | (k, _) :: rest, x => k == x || isKey rest x

/-- Graph::addEdge: adjList[from].push_back({to, cost, line}); appends to
the station's edge vector, creating the entry when absent. -/
def addEdge (g : AdjList) (src dst : String) (cost : Int) (line : String) : AdjList :=
  match g with
  | [] => [(src, [⟨dst, cost, line⟩])]
  | (k, es) :: rest =>
    if k = src then (k, es ++ [⟨dst, cost, line⟩]) :: rest
    else (k, es) :: addEdge rest src dst cost line

/-- Graph::addBidirectionalEdge: two addEdge calls with endpoints swapped. -/
def addBidirectionalEdge (g : AdjList) (s1 s2 : String) (cost : Int) (line : String) : AdjList :=
  addEdge (addEdge g s1 s2 cost line) s2 s1 cost line

/-- The C++ INT_MAX sentinel (numeric_limits<int>::max()). -/
def INT_MAX : Int := 2147483647

/-- The extra cost added when relaxing an edge: transferCost if already on
a line (non-empty) and the edge's line differs, else 0 (lines 85-88). -/
def extraCost (curLine edgeLine : String) (transferCost : Int) : Int :=
  if ¬curLine.isEmpty ∧ curLine ≠ edgeLine then transferCost else 0

/-- Priority-queue entry, from the local struct Node in Graph::dijkstra. -/
structure Node where
  cost : Int
  station : String
  line : String

/-- Pop a minimum-cost entry from the queue (leftmost among ties),
refining the unspecified heap tie order of std::priority_queue. -/
def popMin : List Node → Option (Node × List Node)
  | [] => none
  | n :: rest =>
    match popMin rest with
    | none => some (n, [])
    | some (m, rest') => if n.cost ≤ m.cost then some (n, rest) else some (m, n :: rest')

/-- Pointwise update of a function-backed map. -/
def upd {α : Type} (f : String → α) (k : String) (v : α) : String → α :=
  fun x => if x = k then v else f x

/-- The transient search state of one Graph::dijkstra invocation:
distance map, parent map (back-pointers), priority queue, and the
adjacency map (threaded because operator[] can insert into it). -/
structure SearchState where
  dist : String → Int
  par : String → Option (String × String)
  pq : List Node
  adj : AdjList

/-- C++ adjList[station]: return the edge vector, inserting an empty
entry when the key is absent (operator[] semantics, line 84). -/
def adjGetI (g : AdjList) (k : String) : List Edge × AdjList :=
  if isKey g k then (lookupEdges g k, g) else ([], g ++ [(k, [])])

/-- Relaxation of one outgoing edge (lines 85-94): compute the transfer
extra, and on strict improvement update dist and parent and push. -/
def relaxOne (transferCost : Int) (cur : Node) (st : SearchState) (e : Edge) : SearchState :=
  let extra := extraCost cur.line e.line transferCost
  let newCost := cur.cost + e.cost + extra
  if newCost < st.dist e.destination then
    { st with
      dist := upd st.dist e.destination newCost
      par := upd st.par e.destination (some (cur.station, e.line))
      pq := st.pq ++ [⟨newCost, e.destination, e.line⟩] }
  else st

/-- Relax all outgoing edges of the popped station, in vector order. -/
def relaxList (transferCost : Int) (cur : Node) (edges : List Edge) (st : SearchState) : SearchState :=
  edges.foldl (relaxOne transferCost cur) st

/-- The main search loop of Graph::dijkstra (lines 77-96), with fuel:
pop a minimum entry, drop it if stale, stop if it is the destination,
otherwise relax its outgoing edges.  none = fuel exhausted. -/
def searchLoop (destination : String) (transferCost : Int) :
    Nat → SearchState → Option SearchState
  | 0, _ => none
  | fuel + 1, st =>
    match popMin st.pq with
    | none => some st
    | some (cur, rest) =>
      if cur.cost > st.dist cur.station then
        searchLoop destination transferCost fuel { st with pq := rest }
      else if cur.station = destination then
        some { st with pq := rest }
      else
        let p := adjGetI st.adj cur.station
        searchLoop destination transferCost fuel
          (relaxList transferCost cur p.1 { st with pq := rest, adj := p.2 })

/-- The path-reconstruction loop (lines 103-107), with fuel: while the
cursor is not the source, record (cursor, line used to arrive) and step
to the parent; parent reads default to ("","") as C++ operator[] does.
none = fuel exhausted (the loop did not reach the source). -/
def recLoop (par : String → String × String) (source : String) :
    Nat → String → List (String × String) → Option (List (String × String))
  | 0, cur, acc => if cur = source then some acc else none
  | fuel + 1, cur, acc =>
    if cur = source then some acc
    else recLoop par source fuel (par cur).1 (acc ++ [(cur, (par cur).2)])

/-- The search state at entry of the loop (lines 52-75): every adjacency
key at INT_MAX then dist[source] = 0 (absent keys read as the C++
value-initialized 0), parent[source] = ("",""), queue = {(0, source, "")}. -/
def initState (adj : AdjList) (source : String) : SearchState :=
  { dist := fun x => if x = source then 0 else if isKey adj x then INT_MAX else 0
    par := fun x => if x = source then some ("", "") else none
    pq := [⟨0, source, ""⟩]
    adj := adj }

/-- Graph::dijkstra (lines 50-111).  Returns the pair {total cost, path}
together with the final adjacency map (which operator[] may have grown),
or none if a loop exhausted its fuel.  Unreachable = (-1, []). -/
def dijkstra (adj : AdjList) (source destination : String) (transferCost : Int)
    (fuel : Nat) : Option ((Int × List (String × String)) × AdjList) :=
  match searchLoop destination transferCost fuel (initState adj source) with
  | none => none
  | some st =>
    if st.dist destination = INT_MAX then some ((-1, []), st.adj)
    else
      match recLoop (fun x => (st.par x).getD ("", "")) source fuel destination [] with
      | none => none
      | some acc => some ((st.dist destination, (acc ++ [(source, "")]).reverse), st.adj)

/-- buildSampleGraph (lines 129-150): the hardcoded NYC sample network. -/
def buildSampleGraph : AdjList :=
  let g := addBidirectionalEdge [] "Times Sq" "42nd St" 4 "1"
  let g := addBidirectionalEdge g "42nd St" "34th St" 5 "1"
  let g := addBidirectionalEdge g "34th St" "Penn Station" 6 "1"
  let g := addBidirectionalEdge g "42nd St" "Grand Central" 3 "2"
  let g := addBidirectionalEdge g "Grand Central" "14th St" 6 "2"
  let g := addBidirectionalEdge g "14th St" "Wall St" 7 "2"
  let g := addBidirectionalEdge g "34th St" "Union Sq" 4 "3"
  let g := addBidirectionalEdge g "Union Sq" "Houston St" 7 "3"
  let g := addBidirectionalEdge g "Houston St" "Canal St" 5 "3"
  addBidirectionalEdge g "Grand Central" "Union Sq" 4 "Interchange"

/-! Concrete graphs used as test inputs for the claims, all built through
the graph-construction interface. -/

/-- Three stations S, M, D: two parallel S-M edges on lines A (cost 1)
and B (cost 2), M-D on line B (cost 1), plus a return edge keeping D a
key of the map. -/
def gC1 : AdjList :=
  addEdge (addEdge (addEdge (addEdge [] "S" "M" 1 "A") "S" "M" 2 "B") "M" "D" 1 "B")
    "D" "M" 1 "B"

/-- Network where the line held at M depends on the transfer penalty:
S-M direct on line B (cost 10), S-Y-M via lines A, C (cost 2 plus one
transfer), M-D on line B (cost 1), plus an edge keeping D a key. -/
def gC7 : AdjList :=
  addEdge (addEdge (addEdge (addEdge (addEdge [] "S" "M" 10 "B") "S" "Y" 1 "A")
    "Y" "M" 1 "C") "M" "D" 1 "B") "D" "Z" 1 "B"

/-- A single directed edge A -> B: B is an edge destination but not a key
of the adjacency map (a destination-only leaf station). -/
def gLine : AdjList := addEdge [] "A" "B" 1 "1"

/-- A bidirectional A - B edge: both stations are keys of the map. -/
def gBi : AdjList := addBidirectionalEdge [] "A" "B" 1 "1"

/-!  Specification-side path model, used to state optimality and
itinerary-validity claims about the algorithm.  A path is a list of
edges chained through the graph; its cost is the sum of edge costs plus
one transfer extra per line change, with the empty line at the start
(the same extra rule the code applies). -/

/-- A list of edges forms a chain in g starting at station x. -/
def chain (g : AdjList) : String → List Edge → Prop
  | _, [] => True
  | x, e :: es => e ∈ lookupEdges g x ∧ chain g e.destination es

instance chainDecidable (g : AdjList) : (x : String) → (es : List Edge) → Decidable (chain g x es)
  | _, [] => isTrue trivial
  | x, e :: es =>
    match chainDecidable g e.destination es with
    | isTrue h =>
      if he : e ∈ lookupEdges g x then isTrue ⟨he, h⟩ else isFalse (fun hc => he hc.1)
    | isFalse h => isFalse (fun hc => h hc.2)

/-- The endpoint of a chain of edges started at x. -/
def pathEnd (x : String) : List Edge → String
  | [] => x
  | e :: es => pathEnd e.destination es

/-- The transfer-model cost of a chain of edges, given the line used to
arrive at its start ("" at the source). -/
def pathCost (transferCost : Int) : String → List Edge → Int
  | _, [] => 0
  | prev, e :: es => e.cost + extraCost prev e.line transferCost + pathCost transferCost e.line es

/-- The line of the last edge of a chain (prev if the chain is empty). -/
def lastLine (prev : String) : List Edge → String
  | [] => prev
  | e :: es => lastLine e.line es

/-- All edge costs in the graph are non-negative (the spec's data-model
invariant cost >= 0). -/
def NonNeg (g : AdjList) : Prop :=
  ∀ p ∈ g, ∀ e ∈ p.2, 0 ≤ e.cost

instance (g : AdjList) : Decidable (NonNeg g) := by
  unfold NonNeg; infer_instance

/-- The line used (per the parent map) to arrive at a station; "" if the
parent map has no entry. -/
def parLine (par : String → Option (String × String)) (x : String) : String :=
  ((par x).getD ("", "")).2

/-! The search-loop invariant.  g0 is the adjacency map the query was
called on, s the source, tc the transfer cost; all edge costs of g0 and
tc are assumed non-negative where stated. -/

/-- Invariant of the main search loop. -/
structure SInv (g0 : AdjList) (s : String) (tc : Int) (st : SearchState) : Prop where
  adjA : ∀ x, lookupEdges st.adj x = lookupEdges g0 x
  adjE : isKey g0 s = true → st.adj = g0
  distS : st.dist s = 0
  parS : st.par s = some ("", "")
  distD : ∀ x, 0 ≤ st.dist x
  distK : ∀ x, isKey g0 x = false → x ≠ s → st.dist x = 0
  parK : ∀ x, x ≠ s → st.par x = none → st.dist x = (if isKey g0 x then INT_MAX else 0)
  pqP : ∀ n ∈ st.pq, st.dist n.station ≤ n.cost
  pqN : ∀ n ∈ st.pq, st.dist n.station = n.cost → ∃ q, st.par n.station = some (q, n.line)
  pqK : ∀ n ∈ st.pq, isKey g0 n.station = true ∨ n.station = s
  parF : ∀ x p l, st.par x = some (p, l) → x ≠ s → ∀ n ∈ st.pq, st.dist p ≤ n.cost
  parE : ∀ x p l, st.par x = some (p, l) → x ≠ s → (st.par p).isSome = true
  parC : ∀ x p l, st.par x = some (p, l) → x ≠ s →
    ∃ c, Edge.mk x c l ∈ lookupEdges g0 p ∧
      st.dist x = st.dist p + c + extraCost (parLine st.par p) l tc

/-- Additional facts available while relaxing the edges of a freshly
popped, non-stale node cur. -/
structure PopInv (g0 : AdjList) (s : String) (tc : Int) (cur : Node) (st : SearchState)
    extends SInv g0 s tc st : Prop where
  curD : st.dist cur.station = cur.cost
  curN : ∃ q, st.par cur.station = some (q, cur.line)
  curM : ∀ n ∈ st.pq, cur.cost ≤ n.cost
  curG : ∀ x p l, st.par x = some (p, l) → x ≠ s → st.dist p ≤ cur.cost
  curZ : 0 ≤ cur.cost

/-! Basic lemmas about the map and queue operations. -/

theorem upd_same {α : Type} (f : String → α) (k : String) (v : α) : upd f k v k = v := by
  simp [upd]

theorem upd_ne {α : Type} (f : String → α) (k : String) (v : α) {x : String} (h : x ≠ k) :
    upd f k v x = f x := by
  simp [upd, h]

theorem lookupEdges_append_empty (g : AdjList) (k x : String) :
    lookupEdges (g ++ [(k, [])]) x = lookupEdges g x := by
  induction g with
  | nil => simp only [List.nil_append, lookupEdges]; split <;> rfl
  | cons a rest ih =>
    obtain ⟨ka, esa⟩ := a
    simp only [List.cons_append, lookupEdges]
    split <;> simp [ih]

theorem lookupEdges_eq_nil_of_not_key (g : AdjList) (k : String) (h : isKey g k = false) :
    lookupEdges g k = [] := by
  induction g with
  | nil => rfl
  | cons a rest ih =>
    obtain ⟨ka, esa⟩ := a
    simp only [isKey, Bool.or_eq_false_iff, beq_eq_false_iff_ne, ne_eq] at h
    simp only [lookupEdges, if_neg h.1]
    exact ih h.2

theorem adjGetI_fst (g : AdjList) (k : String) : (adjGetI g k).1 = lookupEdges g k := by
  unfold adjGetI
  split
  · rfl
  · next h =>
    rw [lookupEdges_eq_nil_of_not_key g k (by simpa using h)]

theorem adjGetI_snd_lookup (g : AdjList) (k x : String) :
    lookupEdges (adjGetI g k).2 x = lookupEdges g x := by
  unfold adjGetI
  split
  · rfl
  · exact lookupEdges_append_empty g k x

theorem adjGetI_key (g : AdjList) (k : String) (h : isKey g k = true) :
    (adjGetI g k).2 = g := by
  unfold adjGetI
  rw [if_pos h]

theorem nonNeg_lookup {g : AdjList} (h : NonNeg g) {x : String} {e : Edge}
    (he : e ∈ lookupEdges g x) : 0 ≤ e.cost := by
  induction g with
  | nil => simp [lookupEdges] at he
  | cons a rest ih =>
    obtain ⟨ka, esa⟩ := a
    simp only [lookupEdges] at he
    split at he
    · exact h (ka, esa) (by simp) e he
    · exact ih (fun p hp e' he' => h p (List.mem_cons_of_mem _ hp) e' he') he

theorem popMin_eq_none {l : List Node} (h : popMin l = none) : l = [] := by
  cases l with
  | nil => rfl
  | cons n rest =>
    simp only [popMin] at h
    cases hr : popMin rest with
    | none => simp [hr] at h
    | some pr => obtain ⟨m, rest'⟩ := pr; simp only [hr] at h; split at h <;> simp at h

theorem popMin_mem : ∀ {l : List Node} {c : Node} {r : List Node},
    popMin l = some (c, r) → c ∈ l := by
  intro l
  induction l with
  | nil => intro c r h; simp [popMin] at h
  | cons n rest ih =>
    intro c r h
    simp only [popMin] at h
    cases hr : popMin rest with
    | none => simp only [hr] at h; cases h; simp
    | some pr =>
      obtain ⟨m, rest'⟩ := pr
      simp only [hr] at h
      split at h
      · cases h; simp
      · cases h; exact List.mem_cons_of_mem _ (ih hr)

theorem popMin_sub : ∀ {l : List Node} {c : Node} {r : List Node},
    popMin l = some (c, r) → ∀ x ∈ r, x ∈ l := by
  intro l
  induction l with
  | nil => intro c r h; simp [popMin] at h
  | cons n rest ih =>
    intro c r h x hx
    simp only [popMin] at h
    cases hr : popMin rest with
    | none => simp only [hr] at h; cases h; simp at hx
    | some pr =>
      obtain ⟨m, rest'⟩ := pr
      simp only [hr] at h
      split at h
      · cases h; exact List.mem_cons_of_mem _ hx
      · cases h
        rcases List.mem_cons.mp hx with rfl | hx'
        · simp
        · exact List.mem_cons_of_mem _ (ih hr x hx')

theorem popMin_min : ∀ {l : List Node} {c : Node} {r : List Node},
    popMin l = some (c, r) → ∀ x ∈ l, c.cost ≤ x.cost := by
  intro l
  induction l with
  | nil => intro c r h; simp [popMin] at h
  | cons n rest ih =>
    intro c r h x hx
    simp only [popMin] at h
    cases hr : popMin rest with
    | none =>
      simp only [hr] at h; cases h
      rcases List.mem_cons.mp hx with rfl | hx'
      · exact le_refl _
      · rw [popMin_eq_none hr] at hx'; simp at hx'
    | some pr =>
      obtain ⟨m, rest'⟩ := pr
      simp only [hr] at h
      split at h
      · next hle =>
        cases h
        rcases List.mem_cons.mp hx with rfl | hx'
        · exact le_refl _
        · exact le_trans hle (ih hr x hx')
      · next hle =>
        cases h
        rcases List.mem_cons.mp hx with rfl | hx'
        · exact le_of_lt (lt_of_not_ge hle)
        · exact ih hr x hx'

/-- Restricting the queue to a subset preserves the invariant. -/
theorem SInv.sub {g0 : AdjList} {s : String} {tc : Int} {st : SearchState}
    (h : SInv g0 s tc st) (r : List Node) (hr : ∀ n ∈ r, n ∈ st.pq) :
    SInv g0 s tc { st with pq := r } where
  adjA := h.adjA
  adjE := h.adjE
  distS := h.distS
  parS := h.parS
  distD := h.distD
  distK := h.distK
  parK := h.parK
  pqP := fun n hn => h.pqP n (hr n hn)
  pqN := fun n hn => h.pqN n (hr n hn)
  pqK := fun n hn => h.pqK n (hr n hn)
  parF := fun x p l hx hxs n hn => h.parF x p l hx hxs n (hr n hn)
  parE := h.parE
  parC := h.parC

/-- The invariant holds at loop entry. -/
theorem inv_init (g0 : AdjList) (s : String) (tc : Int) : SInv g0 s tc (initState g0 s) where
  adjA := fun _ => rfl
  adjE := fun _ => rfl
  distS := by simp [initState]
  parS := by simp [initState]
  distD := by
    intro x
    simp only [initState]
    split
    · exact le_refl 0
    · split
      · norm_num [INT_MAX]
      · exact le_refl 0
  distK := by
    intro x hk hxs
    simp [initState, hxs, hk]
  parK := by
    intro x hxs _
    simp [initState, hxs]
  pqP := by
    intro n hn
    simp only [initState, List.mem_singleton] at hn ⊢
    subst hn
    simp
  pqN := by
    intro n hn _
    simp only [initState, List.mem_singleton] at hn
    subst hn
    exact ⟨"", by simp [initState]⟩
  pqK := by
    intro n hn
    simp only [initState, List.mem_singleton] at hn
    subst hn
    exact Or.inr rfl
  parF := by
    intro x p l hx hxs
    simp only [initState] at hx
    split at hx
    · next hxs' => exact absurd hxs' hxs
    · exact absurd hx (by simp)
  parE := by
    intro x p l hx hxs
    simp only [initState] at hx
    split at hx
    · next hxs' => exact absurd hxs' hxs
    · exact absurd hx (by simp)
  parC := by
    intro x p l hx hxs
    simp only [initState] at hx
    split at hx
    · next hxs' => exact absurd hxs' hxs
    · exact absurd hx (by simp)

/-- Relaxing one edge of the popped node preserves the invariant bundle. -/
theorem relaxOne_pres {g0 : AdjList} {s : String} {tc : Int} {cur : Node} {st : SearchState}
    (hNN : NonNeg g0) (htc : 0 ≤ tc) (e : Edge) (he : e ∈ lookupEdges g0 cur.station)
    (h : PopInv g0 s tc cur st) : PopInv g0 s tc cur (relaxOne tc cur st e) := by
  have hre : relaxOne tc cur st e =
      if cur.cost + e.cost + extraCost cur.line e.line tc < st.dist e.destination then
        { st with
          dist := upd st.dist e.destination (cur.cost + e.cost + extraCost cur.line e.line tc)
          par := upd st.par e.destination (some (cur.station, e.line))
          pq := st.pq ++
            [⟨cur.cost + e.cost + extraCost cur.line e.line tc, e.destination, e.line⟩] }
      else st := rfl
  rw [hre]
  by_cases hlt : cur.cost + e.cost + extraCost cur.line e.line tc < st.dist e.destination
  · rw [if_pos hlt]
    have h0e : 0 ≤ e.cost := nonNeg_lookup hNN he
    have h0x : 0 ≤ extraCost cur.line e.line tc := by
      unfold extraCost
      split
      · exact htc
      · exact le_refl 0
    generalize hnc : cur.cost + e.cost + extraCost cur.line e.line tc = nc at hlt ⊢
    have hcn : cur.cost ≤ nc := by omega
    have h0n : 0 ≤ nc := le_trans h.curZ hcn
    have hys : e.destination ≠ s := by
      intro heq
      rw [heq, h.distS] at hlt
      omega
    have hyc : cur.station ≠ e.destination := by
      intro heq
      rw [← heq, h.curD] at hlt
      omega
    have hPy : ∀ x p l, st.par x = some (p, l) → x ≠ s → p ≠ e.destination := by
      intro x p l hx hxs heq
      have hg := h.curG x p l hx hxs
      rw [heq] at hg
      omega
    exact {
      adjA := h.adjA
      adjE := h.adjE
      distS := by
        dsimp only
        rw [upd_ne _ _ _ (Ne.symm hys), h.distS]
      parS := by
        dsimp only
        rw [upd_ne _ _ _ (Ne.symm hys), h.parS]
      distD := by
        dsimp only
        intro x
        by_cases hxy : x = e.destination
        · subst hxy
          rw [upd_same]
          exact h0n
        · rw [upd_ne _ _ _ hxy]
          exact h.distD x
      distK := by
        dsimp only
        intro x hk hxs
        by_cases hxy : x = e.destination
        · subst hxy
          exfalso
          have h0 := h.distK _ hk hxs
          rw [h0] at hlt
          omega
        · rw [upd_ne _ _ _ hxy]
          exact h.distK x hk hxs
      parK := by
        dsimp only
        intro x hxs hp
        by_cases hxy : x = e.destination
        · subst hxy
          rw [upd_same] at hp
          exact absurd hp (by simp)
        · rw [upd_ne _ _ _ hxy] at hp
          rw [upd_ne _ _ _ hxy]
          exact h.parK x hxs hp
      pqP := by
        dsimp only
        intro n hn
        rcases List.mem_append.mp hn with hn' | hn'
        · by_cases hny : n.station = e.destination
          · rw [hny, upd_same]
            have hp := h.pqP n hn'
            rw [hny] at hp
            omega
          · rw [upd_ne _ _ _ hny]
            exact h.pqP n hn'
        · rw [List.mem_singleton] at hn'
          subst hn'
          dsimp only
          rw [upd_same]
      pqN := by
        dsimp only
        intro n hn heq
        rcases List.mem_append.mp hn with hn' | hn'
        · by_cases hny : n.station = e.destination
          · exfalso
            have hp := h.pqP n hn'
            rw [hny] at hp heq
            rw [upd_same] at heq
            omega
          · rw [upd_ne _ _ _ hny] at heq
            obtain ⟨q, hq⟩ := h.pqN n hn' heq
            exact ⟨q, by rw [upd_ne _ _ _ hny]; exact hq⟩
        · rw [List.mem_singleton] at hn'
          subst hn'
          exact ⟨cur.station, by dsimp only; rw [upd_same]⟩
      pqK := by
        dsimp only
        intro n hn
        rcases List.mem_append.mp hn with hn' | hn'
        · exact h.pqK n hn'
        · rw [List.mem_singleton] at hn'
          subst hn'
          dsimp only
          by_cases hk : isKey g0 e.destination = true
          · exact Or.inl hk
          · exfalso
            have h0 := h.distK e.destination (by simpa using hk) hys
            rw [h0] at hlt
            omega
      parF := by
        dsimp only
        intro x p l hx hxs n hn
        by_cases hxy : x = e.destination
        · subst hxy
          rw [upd_same] at hx
          simp only [Option.some.injEq, Prod.mk.injEq] at hx
          obtain ⟨h1, h2⟩ := hx
          subst h1
          rw [upd_ne _ _ _ hyc, h.curD]
          rcases List.mem_append.mp hn with hn' | hn'
          · exact h.curM n hn'
          · rw [List.mem_singleton] at hn'
            subst hn'
            exact hcn
        · rw [upd_ne _ _ _ hxy] at hx
          rw [upd_ne _ _ _ (hPy x p l hx hxs)]
          rcases List.mem_append.mp hn with hn' | hn'
          · exact h.parF x p l hx hxs n hn'
          · rw [List.mem_singleton] at hn'
            subst hn'
            exact le_trans (h.curG x p l hx hxs) hcn
      parE := by
        dsimp only
        intro x p l hx hxs
        by_cases hxy : x = e.destination
        · subst hxy
          rw [upd_same] at hx
          simp only [Option.some.injEq, Prod.mk.injEq] at hx
          obtain ⟨h1, h2⟩ := hx
          subst h1
          rw [upd_ne _ _ _ hyc]
          obtain ⟨q, hq⟩ := h.curN
          rw [hq]
          rfl
        · rw [upd_ne _ _ _ hxy] at hx
          rw [upd_ne _ _ _ (hPy x p l hx hxs)]
          exact h.parE x p l hx hxs
      parC := by
        dsimp only
        intro x p l hx hxs
        by_cases hxy : x = e.destination
        · subst hxy
          rw [upd_same] at hx
          simp only [Option.some.injEq, Prod.mk.injEq] at hx
          obtain ⟨h1, h2⟩ := hx
          subst h1
          subst h2
          refine ⟨e.cost, ?_, ?_⟩
          · have hee : Edge.mk e.destination e.cost e.line = e := rfl
            rw [hee]
            exact he
          · rw [upd_same, upd_ne _ _ _ hyc, h.curD]
            have hpl : parLine (upd st.par e.destination (some (cur.station, e.line)))
                cur.station = cur.line := by
              obtain ⟨q, hq⟩ := h.curN
              unfold parLine
              rw [upd_ne _ _ _ hyc, hq]
              rfl
            rw [hpl]
            exact hnc.symm
        · rw [upd_ne _ _ _ hxy] at hx
          obtain ⟨c, hc1, hc2⟩ := h.parC x p l hx hxs
          have hpy := hPy x p l hx hxs
          refine ⟨c, hc1, ?_⟩
          rw [upd_ne _ _ _ hxy, upd_ne _ _ _ hpy]
          have hpl : parLine (upd st.par e.destination (some (cur.station, e.line))) p =
              parLine st.par p := by
            unfold parLine
            rw [upd_ne _ _ _ hpy]
          rw [hpl]
          exact hc2
      curD := by
        dsimp only
        rw [upd_ne _ _ _ hyc]
        exact h.curD
      curN := by
        dsimp only
        obtain ⟨q, hq⟩ := h.curN
        exact ⟨q, by rw [upd_ne _ _ _ hyc]; exact hq⟩
      curM := by
        dsimp only
        intro n hn
        rcases List.mem_append.mp hn with hn' | hn'
        · exact h.curM n hn'
        · rw [List.mem_singleton] at hn'
          subst hn'
          exact hcn
      curG := by
        dsimp only
        intro x p l hx hxs
        by_cases hxy : x = e.destination
        · subst hxy
          rw [upd_same] at hx
          simp only [Option.some.injEq, Prod.mk.injEq] at hx
          obtain ⟨h1, h2⟩ := hx
          subst h1
          rw [upd_ne _ _ _ hyc, h.curD]
        · rw [upd_ne _ _ _ hxy] at hx
          rw [upd_ne _ _ _ (hPy x p l hx hxs)]
          exact h.curG x p l hx hxs
      curZ := h.curZ }
  · rw [if_neg hlt]
    exact h

/-- Relaxing a list of edges of the popped node preserves the bundle. -/
theorem relaxList_pres {g0 : AdjList} {s : String} {tc : Int} {cur : Node}
    (hNN : NonNeg g0) (htc : 0 ≤ tc) :
    ∀ (edges : List Edge) (st : SearchState),
    (∀ e ∈ edges, e ∈ lookupEdges g0 cur.station) →
    PopInv g0 s tc cur st → PopInv g0 s tc cur (relaxList tc cur edges st) := by
  intro edges
  induction edges with
  | nil => intro st _ h; exact h
  | cons e rest ih =>
    intro st hsub h
    have hstep : relaxList tc cur (e :: rest) st = relaxList tc cur rest (relaxOne tc cur st e) :=
      rfl
    rw [hstep]
    exact ih _ (fun e' he' => hsub e' (List.mem_cons_of_mem _ he'))
      (relaxOne_pres hNN htc e (hsub e (List.mem_cons_self _ _)) h)

/-- Popping a non-stale node from the queue yields the relaxation bundle. -/
theorem popInv_establish {g0 : AdjList} {s : String} {tc : Int} {st : SearchState}
    {cur : Node} {rest : List Node}
    (h : SInv g0 s tc st) (hpop : popMin st.pq = some (cur, rest))
    (hstale : ¬ cur.cost > st.dist cur.station) :
    PopInv g0 s tc cur { st with pq := rest, adj := (adjGetI st.adj cur.station).2 } := by
  have hcm : cur ∈ st.pq := popMin_mem hpop
  have hsub := popMin_sub hpop
  have hmin := popMin_min hpop
  have hcd : st.dist cur.station = cur.cost := le_antisymm (h.pqP cur hcm) (not_lt.mp hstale)
  exact {
    adjA := fun x => (adjGetI_snd_lookup st.adj cur.station x).trans (h.adjA x)
    adjE := by
      intro hk
      dsimp only
      have hck : isKey g0 cur.station = true := by
        rcases h.pqK cur hcm with hck | hck
        · exact hck
        · rw [hck]; exact hk
      rw [h.adjE hk]
      exact adjGetI_key g0 cur.station hck
    distS := h.distS
    parS := h.parS
    distD := h.distD
    distK := h.distK
    parK := h.parK
    pqP := fun n hn => h.pqP n (hsub n hn)
    pqN := fun n hn => h.pqN n (hsub n hn)
    pqK := fun n hn => h.pqK n (hsub n hn)
    parF := fun x p l hx hxs n hn => h.parF x p l hx hxs n (hsub n hn)
    parE := h.parE
    parC := h.parC
    curD := hcd
    curN := h.pqN cur hcm hcd
    curM := fun n hn => hmin n (hsub n hn)
    curG := fun x p l hx hxs => h.parF x p l hx hxs cur hcm
    curZ := le_trans (h.distD cur.station) (h.pqP cur hcm) }

/-- The search loop preserves the invariant. -/
theorem searchLoop_inv {g0 : AdjList} {s d : String} {tc : Int}
    (hNN : NonNeg g0) (htc : 0 ≤ tc) :
    ∀ (fuel : Nat) (st st' : SearchState), SInv g0 s tc st →
    searchLoop d tc fuel st = some st' → SInv g0 s tc st' := by
  intro fuel
  induction fuel with
  | zero => intro st st' _ hrun; simp [searchLoop] at hrun
  | succ fuel ih =>
    intro st st' h hrun
    rw [searchLoop] at hrun
    split at hrun
    · injection hrun with h'
      rw [← h']
      exact h
    · next cur rest hpop =>
      by_cases hstale : cur.cost > st.dist cur.station
      · rw [if_pos hstale] at hrun
        exact ih _ _ (h.sub rest (popMin_sub hpop)) hrun
      · rw [if_neg hstale] at hrun
        by_cases hdest : cur.station = d
        · rw [if_pos hdest] at hrun
          injection hrun with h'
          rw [← h']
          exact h.sub rest (popMin_sub hpop)
        · rw [if_neg hdest] at hrun
          have hp := popInv_establish h hpop hstale
          have hsubE : ∀ e ∈ (adjGetI st.adj cur.station).1, e ∈ lookupEdges g0 cur.station := by
            intro e he
            rw [adjGetI_fst, h.adjA] at he
            exact he
          exact ih _ _ (relaxList_pres hNN htc _ _ hsubE hp).toSInv hrun

/-! Lemmas about the specification-side path model. -/

theorem chain_snoc {g : AdjList} {x : String} {es : List Edge} {e : Edge}
    (h : chain g x es) (he : e ∈ lookupEdges g (pathEnd x es)) : chain g x (es ++ [e]) := by
  induction es generalizing x with
  | nil => exact ⟨he, trivial⟩
  | cons e' rest ih => exact ⟨h.1, ih h.2 he⟩

theorem pathEnd_snoc (x : String) (es : List Edge) (e : Edge) :
    pathEnd x (es ++ [e]) = e.destination := by
  induction es generalizing x with
  | nil => rfl
  | cons e' rest ih =>
    simp only [List.cons_append, pathEnd]
    exact ih e'.destination

theorem pathCost_snoc (tc : Int) (prev : String) (es : List Edge) (e : Edge) :
    pathCost tc prev (es ++ [e]) =
      pathCost tc prev es + e.cost + extraCost (lastLine prev es) e.line tc := by
  induction es generalizing prev with
  | nil => simp only [List.nil_append, pathCost, lastLine]; ring
  | cons e' rest ih =>
    simp only [List.cons_append, List.append_eq, pathCost, lastLine]
    rw [ih]
    ring

theorem lastLine_snoc (prev : String) (es : List Edge) (e : Edge) :
    lastLine prev (es ++ [e]) = e.line := by
  induction es generalizing prev with
  | nil => rfl
  | cons e' rest ih =>
    simp only [List.cons_append, lastLine]
    exact ih e'.line

/-- The reconstruction loop, run on a state satisfying the invariant from
a cursor that the parent map covers, produces the back-walk of an actual
chain of graph edges from the source whose transfer-model cost is the
recorded distance of the cursor. -/
theorem rec_spec {g0 : AdjList} {s : String} {tc : Int} {st : SearchState}
    (h : SInv g0 s tc st) :
    ∀ (fuel : Nat) (cur : String) (acc res : List (String × String)),
    (cur = s ∨ (st.par cur).isSome = true) →
    recLoop (fun x => (st.par x).getD ("", "")) s fuel cur acc = some res →
    ∃ pre es, res = acc ++ pre ∧ chain g0 s es ∧ pathEnd s es = cur ∧
      pathCost tc "" es = st.dist cur ∧ lastLine "" es = parLine st.par cur ∧
      pre.reverse = es.map (fun e => (e.destination, e.line)) := by
  intro fuel
  induction fuel with
  | zero =>
    intro cur acc res hcur hrun
    rw [recLoop] at hrun
    by_cases hcs : cur = s
    · subst hcs
      rw [if_pos rfl] at hrun
      injection hrun with h'
      subst h'
      refine ⟨[], [], by simp, trivial, rfl, h.distS.symm, ?_, by simp⟩
      unfold parLine
      rw [h.parS]
      rfl
    · rw [if_neg hcs] at hrun
      exact absurd hrun (by simp)
  | succ fuel ih =>
    intro cur acc res hcur hrun
    rw [recLoop] at hrun
    by_cases hcs : cur = s
    · subst hcs
      rw [if_pos rfl] at hrun
      injection hrun with h'
      subst h'
      refine ⟨[], [], by simp, trivial, rfl, h.distS.symm, ?_, by simp⟩
      unfold parLine
      rw [h.parS]
      rfl
    · rw [if_neg hcs] at hrun
      have hsome : (st.par cur).isSome = true := hcur.resolve_left hcs
      obtain ⟨⟨p, l⟩, hpl⟩ := Option.isSome_iff_exists.mp hsome
      simp only [hpl, Option.getD_some] at hrun
      obtain ⟨pre', es', hres, hch, hend, hcost, hlast, hrev⟩ :=
        ih p (acc ++ [(cur, l)]) res (Or.inr (h.parE cur p l hpl hcs)) hrun
      obtain ⟨c, hcmem, hceq⟩ := h.parC cur p l hpl hcs
      refine ⟨(cur, l) :: pre', es' ++ [Edge.mk cur c l], ?_, ?_, ?_, ?_, ?_, ?_⟩
      · rw [hres]
        simp
      · exact chain_snoc hch (by rw [hend]; exact hcmem)
      · rw [pathEnd_snoc]
      · rw [pathCost_snoc, hcost, hlast]
        exact hceq.symm
      · rw [lastLine_snoc]
        unfold parLine
        rw [hpl]
        rfl
      · simp [hrev]

/-- Any successful (non-unreachable) dijkstra result whose destination is
the source or a key of the map returns the transfer-model cost of an
actual chain of graph edges from source to destination, and the itinerary
is exactly that chain prefixed by the source entry. -/
theorem dijkstra_success_spec {g g' : AdjList} {s d : String} {tc c : Int} {fuel : Nat}
    {it : List (String × String)}
    (hNN : NonNeg g) (htc : 0 ≤ tc) (hkey : d = s ∨ isKey g d = true)
    (hrun : dijkstra g s d tc fuel = some ((c, it), g')) (hc : c ≠ -1) :
    ∃ es, chain g s es ∧ pathEnd s es = d ∧ pathCost tc "" es = c ∧
      it = (s, "") :: es.map (fun e => (e.destination, e.line)) := by
  rw [dijkstra] at hrun
  cases hsl : searchLoop d tc fuel (initState g s) with
  | none => rw [hsl] at hrun; exact absurd hrun (by simp)
  | some st =>
    rw [hsl] at hrun
    dsimp only at hrun
    have hinv : SInv g s tc st := searchLoop_inv hNN htc fuel _ _ (inv_init g s tc) hsl
    by_cases hmax : st.dist d = INT_MAX
    · rw [if_pos hmax] at hrun
      injection hrun with h'
      simp only [Prod.mk.injEq] at h'
      exact absurd h'.1.1.symm hc
    · rw [if_neg hmax] at hrun
      cases hrl : recLoop (fun x => (st.par x).getD ("", "")) s fuel d [] with
      | none => rw [hrl] at hrun; dsimp only at hrun; exact absurd hrun (by simp)
      | some acc =>
        rw [hrl] at hrun
        injection hrun with h'
        simp only [Prod.mk.injEq] at h'
        obtain ⟨⟨h1, h2⟩, h3⟩ := h'
        have hdisj : d = s ∨ (st.par d).isSome = true := by
          by_cases hds : d = s
          · exact Or.inl hds
          · right
            rcases hkey with hk | hk
            · exact absurd hk hds
            · by_cases hps : (st.par d).isSome = true
              · exact hps
              · exfalso
                have hnone : st.par d = none :=
                  Option.not_isSome_iff_eq_none.mp (by simpa using hps)
                have hd := hinv.parK d hds hnone
                rw [hk] at hd
                simp at hd
                exact hmax hd
        obtain ⟨pre, es, hres, hch, hend, hcost, _, hrev⟩ :=
          rec_spec hinv fuel d [] acc hdisj hrl
        refine ⟨es, hch, hend, by rw [hcost]; exact h1, ?_⟩
        rw [← h2, hres]
        simp [hrev]

/-- With at least one unit of fuel, a query with source = destination
stops at the first pop: cost 0, itinerary [(s, "")], map unchanged. -/
theorem searchLoop_self (g : AdjList) (s : String) (tc : Int) (m : Nat) :
    searchLoop s tc (m + 1) (initState g s) = some { initState g s with pq := [] } := by
  rw [searchLoop]
  split
  · next hpop => simp [initState, popMin] at hpop
  · next cur rest hpop =>
    simp only [initState, popMin] at hpop
    cases hpop
    rw [if_neg (by simp [initState]), if_pos rfl]

/-- The reconstruction loop started at the source returns immediately. -/
theorem recLoop_refl (par : String → String × String) (s : String) (fuel : Nat)
    (acc : List (String × String)) : recLoop par s fuel s acc = some acc := by
  cases fuel <;> simp [recLoop]

/-- dijkstra on source = destination with fuel at least 1. -/
theorem dijkstra_self (g : AdjList) (s : String) (tc : Int) (fuel : Nat) (hf : 1 ≤ fuel) :
    dijkstra g s s tc fuel = some ((0, [(s, "")]), g) := by
  obtain ⟨m, rfl⟩ : ∃ m, fuel = m + 1 := ⟨fuel - 1, by omega⟩
  rw [dijkstra, searchLoop_self]
  dsimp only
  rw [if_neg (by simp [initState, INT_MAX]), recLoop_refl]
  dsimp only
  simp [initState]

/-- Whenever the source is a key of the adjacency map (or the query is
degenerate with source = destination), a completed dijkstra call leaves
the adjacency map exactly as it was. -/
theorem dijkstra_adj_spec {g g' : AdjList} {s d : String} {tc : Int} {fuel : Nat}
    {r : Int × List (String × String)}
    (hNN : NonNeg g) (htc : 0 ≤ tc) (hs : isKey g s = true ∨ s = d)
    (hrun : dijkstra g s d tc fuel = some (r, g')) : g' = g := by
  rcases hs with hs | hs
  · rw [dijkstra] at hrun
    cases hsl : searchLoop d tc fuel (initState g s) with
    | none => rw [hsl] at hrun; exact absurd hrun (by simp)
    | some st =>
      rw [hsl] at hrun
      dsimp only at hrun
      have hinv : SInv g s tc st := searchLoop_inv hNN htc fuel _ _ (inv_init g s tc) hsl
      have hadj : st.adj = g := hinv.adjE hs
      by_cases hmax : st.dist d = INT_MAX
      · rw [if_pos hmax] at hrun
        injection hrun with h'
        simp only [Prod.mk.injEq] at h'
        rw [← h'.2]
        exact hadj
      · rw [if_neg hmax] at hrun
        cases hrl : recLoop (fun x => (st.par x).getD ("", "")) s fuel d [] with
        | none => rw [hrl] at hrun; dsimp only at hrun; exact absurd hrun (by simp)
        | some acc =>
          rw [hrl] at hrun
          dsimp only at hrun
          injection hrun with h'
          simp only [Prod.mk.injEq] at h'
          rw [← h'.2]
          exact hadj
  · subst hs
    cases fuel with
    | zero => rw [dijkstra] at hrun; simp [searchLoop] at hrun
    | succ m =>
      rw [dijkstra_self g s tc (m + 1) (by omega)] at hrun
      injection hrun with h'
      simp only [Prod.mk.injEq] at h'
      exact h'.2.symm

/-! The nonterminating reconstruction: when the destination was never
recorded by the search, its parent reads as the value-initialized
("",""), and the loop then steps from "" to "" forever. -/

/-- A search loop step on an empty queue returns the state unchanged. -/
theorem searchLoop_empty (d : String) (tc : Int) (fuel : Nat) (st : SearchState)
    (h : st.pq = []) : searchLoop d tc (fuel + 1) st = some st := by
  rw [searchLoop, h]
  rfl

/-- The reconstruction loop never terminates once the cursor is the empty
string, the source is not "", and parent reads of "" give ("",""). -/
theorem recLoop_stuck (par : String → String × String) (s : String)
    (hs : s ≠ "") (hpar : par "" = ("", "")) :
    ∀ (n : Nat) (acc : List (String × String)), recLoop par s n "" acc = none := by
  intro n
  induction n with
  | zero =>
    intro acc
    rw [recLoop, if_neg (fun h => hs h.symm)]
  | succ m ih =>
    intro acc
    rw [recLoop, if_neg (fun h => hs h.symm), hpar]
    exact ih _

/-- The reconstruction loop never terminates from a cursor whose parent
reads as the garbage value ("",""), for a non-empty source. -/
theorem recLoop_garbage (par : String → String × String) (s cur : String)
    (hs : s ≠ "") (hcur : cur ≠ s) (hpc : par cur = ("", "")) (hpar : par "" = ("", "")) :
    ∀ (n : Nat) (acc : List (String × String)), recLoop par s n cur acc = none := by
  intro n acc
  cases n with
  | zero => rw [recLoop, if_neg hcur]
  | succ m =>
    rw [recLoop, if_neg hcur, hpc]
    exact recLoop_stuck par s hs hpar m _

/-- Running the search on gLine from source A towards any destination
other than A completes within two units of fuel, with no change to the
distance table (the relaxation of A -> B fails against B's
value-initialized distance 0). -/
theorem searchLoop_gLine (d : String) (hd : d ≠ "A") (tc : Int) (m : Nat) :
    searchLoop d tc (m + 2) (initState gLine "A") =
      some { initState gLine "A" with pq := [] } := by
  rw [searchLoop]
  split
  · next hpop => simp [initState, popMin] at hpop
  · next cur rest hpop =>
    simp only [initState, popMin] at hpop
    cases hpop
    rw [if_neg (by decide), if_neg (fun h => hd h.symm)]
    exact searchLoop_empty d tc m _ rfl

/-- C2: querying a destination absent from the graph does not return the
unreachable value: the reconstruction loop never terminates. -/
theorem c2_absent_destination_hangs :
    ∀ fuel : Nat, dijkstra gLine "A" "Z" 0 fuel = none := by
  intro fuel
  match fuel with
  | 0 => rfl
  | 1 => rfl
  | m + 2 =>
    rw [dijkstra, searchLoop_gLine "Z" (by decide) 0 m]
    dsimp only
    rw [if_neg (by decide)]
    rw [recLoop_garbage
      (fun x => ((({ initState gLine "A" with pq := [] } : SearchState).par x).getD ("", "")))
      "A" "Z" (by decide) (by decide) rfl rfl (m + 2) []]

/-- C3: a reachable destination-only leaf station (B in gLine) makes the
reconstruction loop nonterminating: the relaxation of A -> B cannot beat
B's value-initialized distance 0, so B's parent is never recorded. -/
theorem c3_leaf_destination_hangs :
    ∀ fuel : Nat, dijkstra gLine "A" "B" 2 fuel = none := by
  intro fuel
  match fuel with
  | 0 => rfl
  | 1 => rfl
  | m + 2 =>
    rw [dijkstra, searchLoop_gLine "B" (by decide) 2 m]
    dsimp only
    rw [if_neg (by decide)]
    rw [recLoop_garbage
      (fun x => ((({ initState gLine "A" with pq := [] } : SearchState).par x).getD ("", "")))
      "A" "B" (by decide) (by decide) rfl rfl (m + 2) []]

/-! Claim theorems. -/

/-- C1 counterexample: with non-negative costs and penalty 10, on gC1 the
destination D is reachable and the returned cost is 12, yet an actual
path (S -B-> M -B-> D) has transfer-model cost 3; so the returned cost is
not the minimum over all paths. -/
theorem c1_returned_cost_not_minimal :
    dijkstra gC1 "S" "D" 10 20 = some ((12, [("S", ""), ("M", "A"), ("D", "B")]), gC1) ∧
    NonNeg gC1 ∧ (0 : Int) ≤ 10 ∧
    chain gC1 "S" [Edge.mk "M" 2 "B", Edge.mk "D" 1 "B"] ∧
    pathEnd "S" [Edge.mk "M" 2 "B", Edge.mk "D" 1 "B"] = "D" ∧
    pathCost 10 "" [Edge.mk "M" 2 "B", Edge.mk "D" 1 "B"] = 3 ∧
    ¬(12 : Int) ≤ 3 ∧
    ¬(∀ es, chain gC1 "S" es → pathEnd "S" es = "D" → (12 : Int) ≤ pathCost 10 "" es) := by
  refine ⟨by decide, by decide, by decide, by decide, by decide, by decide, by decide, ?_⟩
  intro hall
  exact absurd (hall [Edge.mk "M" 2 "B", Edge.mk "D" 1 "B"] (by decide) (by decide)) (by decide)

/-- C1 amended: for non-negative costs and penalty, a successful result
whose destination is the source or a key of the map returns the
transfer-model cost of some actual path from source to destination (so it
never under-reports the optimum, though it can exceed it). -/
theorem c1_returned_cost_is_some_path_cost (g g' : AdjList) (s d : String) (tc c : Int)
    (fuel : Nat) (it : List (String × String)) (hNN : NonNeg g) (htc : 0 ≤ tc)
    (hkey : d = s ∨ isKey g d = true)
    (hrun : dijkstra g s d tc fuel = some ((c, it), g')) (hc : c ≠ -1) :
    ∃ es, chain g s es ∧ pathEnd s es = d ∧ pathCost tc "" es = c := by
  obtain ⟨es, h1, h2, h3, _⟩ := dijkstra_success_spec hNN htc hkey hrun hc
  exact ⟨es, h1, h2, h3⟩

/-- C1 amended, witness at a concrete input (gC1 with penalty 10). -/
theorem c1_returned_cost_is_some_path_cost_witness :
    ∃ es, chain gC1 "S" es ∧ pathEnd "S" es = "D" ∧ pathCost 10 "" es = 12 :=
  c1_returned_cost_is_some_path_cost gC1 gC1 "S" "D" 10 12 20
    [("S", ""), ("M", "A"), ("D", "B")]
    (by decide) (by decide) (Or.inr (by decide)) (by decide) (by decide)

/-- C4 counterexample: a successful (cost 0, non-unreachable) itinerary
[("",""), ("Z","")] is returned for source "" and absent destination "Z"
on the non-negative graph gBi, but station "" stores no edges at all, so
the consecutive pair does not correspond to any edge of the graph. -/
theorem c4_invalid_successful_itinerary :
    dijkstra gBi "" "Z" 0 10 = some ((0, [("", ""), ("Z", "")]), gBi ++ [("", [])]) ∧
    NonNeg gBi ∧ (0 : Int) ≠ -1 ∧ lookupEdges gBi "" = [] := by
  decide

/-- C4 amended: for non-negative costs and penalty, when the destination
is the source or a key of the map, every successful itinerary is the
source entry followed by the stations and lines of an actual chain of
graph edges from source to destination whose edge costs plus transfer
penalties sum exactly to the returned cost. -/
theorem c4_itinerary_valid (g g' : AdjList) (s d : String) (tc c : Int)
    (fuel : Nat) (it : List (String × String)) (hNN : NonNeg g) (htc : 0 ≤ tc)
    (hkey : d = s ∨ isKey g d = true)
    (hrun : dijkstra g s d tc fuel = some ((c, it), g')) (hc : c ≠ -1) :
    ∃ es, chain g s es ∧ pathEnd s es = d ∧ pathCost tc "" es = c ∧
      it = (s, "") :: es.map (fun e => (e.destination, e.line)) :=
  dijkstra_success_spec hNN htc hkey hrun hc

/-- C4 amended, witness on the sample network. -/
theorem c4_itinerary_valid_witness :
    ∃ es, chain buildSampleGraph "Times Sq" es ∧ pathEnd "Times Sq" es = "Grand Central" ∧
      pathCost 2 "" es = 9 ∧
      [("Times Sq", ""), ("42nd St", "1"), ("Grand Central", "2")] =
        ("Times Sq", "") :: es.map (fun e => (e.destination, e.line)) :=
  c4_itinerary_valid buildSampleGraph buildSampleGraph "Times Sq" "Grand Central" 2 9 40
    [("Times Sq", ""), ("42nd St", "1"), ("Grand Central", "2")]
    (by decide) (by decide) (Or.inr (by decide)) (by decide) (by decide)

/-- C5: for every graph, station and transfer penalty, a query with
source = destination returns cost 0 and the one-element itinerary
[(s, "")] (given at least one unit of fuel, which the C++ loop always
has). -/
theorem c5_self_query (g : AdjList) (s : String) (tc : Int) (fuel : Nat) (hf : 1 ≤ fuel) :
    dijkstra g s s tc fuel = some ((0, [(s, "")]), g) :=
  dijkstra_self g s tc fuel hf

/-- C5 witness on the sample network. -/
theorem c5_self_query_witness :
    dijkstra buildSampleGraph "Wall St" "Wall St" 2 5 =
      some ((0, [("Wall St", "")]), buildSampleGraph) :=
  c5_self_query buildSampleGraph "Wall St" 2 5 (by decide)

/-- C6: the extra cost of a relaxation equals the transfer penalty exactly
when the line used to reach the popped node is non-none ("") and differs
from the edge's line, and 0 otherwise; in particular the initial queue
entry for the source carries the none line "", and relaxing from a node
on the none line never charges a penalty. -/
theorem c6_transfer_extra_rule :
    (∀ (curLine edgeLine : String) (tc : Int),
      extraCost curLine edgeLine tc =
        if curLine ≠ "" ∧ curLine ≠ edgeLine then tc else 0) ∧
    (∀ (edgeLine : String) (tc : Int), extraCost "" edgeLine tc = 0) ∧
    (∀ (g : AdjList) (s : String), (initState g s).pq = [⟨0, s, ""⟩]) := by
  refine ⟨?_, fun el tc => rfl, fun g s => rfl⟩
  intro cl el tc
  unfold extraCost
  by_cases h : cl = ""
  · subst h
    rfl
  · have hne : cl.isEmpty = false := by
      rw [← Bool.not_eq_true]
      intro hemp
      exact h ((String.isEmpty_iff cl).mp hemp)
    simp [hne, h]

/-- C7 counterexample: on gC7 (non-negative costs) the returned cost for
penalty 7 is 17, but for the larger penalty 8 it is 11: increasing the
transfer penalty decreased the returned cost. -/
theorem c7_returned_cost_not_monotone :
    dijkstra gC7 "S" "D" 7 30 =
      some ((17, [("S", ""), ("Y", "A"), ("M", "C"), ("D", "B")]), gC7) ∧
    dijkstra gC7 "S" "D" 8 30 =
      some ((11, [("S", ""), ("M", "B"), ("D", "B")]), gC7) ∧
    NonNeg gC7 ∧ (7 : Int) ≤ 8 ∧ ¬(17 : Int) ≤ 11 :=
  ⟨by decide, by decide, by decide, by decide, by decide⟩

/-- C7 amended: the transfer-model cost of any fixed path is monotone in
the transfer penalty (hence the true optimum is monotone), although the
cost returned by the search is not. -/
theorem c7_path_cost_monotone (prev : String) (es : List Edge) (tc1 tc2 : Int)
    (h : tc1 ≤ tc2) : pathCost tc1 prev es ≤ pathCost tc2 prev es := by
  induction es generalizing prev with
  | nil => exact le_refl 0
  | cons e rest ih =>
    simp only [pathCost]
    have h1 : extraCost prev e.line tc1 ≤ extraCost prev e.line tc2 := by
      unfold extraCost
      split
      · exact h
      · exact le_refl 0
    have h2 := ih e.line
    omega

/-- C7 amended, witness on a concrete path of gC7. -/
theorem c7_path_cost_monotone_witness :
    (7 : Int) ≤ 8 ∧
      pathCost 7 "" [Edge.mk "Y" 1 "A", Edge.mk "M" 1 "C", Edge.mk "D" 1 "B"] ≤
        pathCost 8 "" [Edge.mk "Y" 1 "A", Edge.mk "M" 1 "C", Edge.mk "D" 1 "B"] :=
  ⟨by decide, c7_path_cost_monotone "" [Edge.mk "Y" 1 "A", Edge.mk "M" 1 "C", Edge.mk "D" 1 "B"]
    7 8 (by decide)⟩

/-- C8 counterexample: a query naming a source absent from the graph
inserts an empty adjacency entry for it: the store after the call differs
from the store before the call. -/
theorem c8_absent_source_mutates_store :
    dijkstra gBi "Q" "A" 0 10 = some ((-1, []), gBi ++ [("Q", [])]) ∧
    NonNeg gBi ∧ gBi ++ [("Q", [])] ≠ gBi := by
  decide

/-- C8 amended: for non-negative costs and penalty, whenever the source
is a key of the adjacency map (or the query is degenerate with
source = destination), a completed query returns the store unchanged. -/
theorem c8_adj_preserved (g g' : AdjList) (s d : String) (tc : Int) (fuel : Nat)
    (r : Int × List (String × String)) (hNN : NonNeg g) (htc : 0 ≤ tc)
    (hs : isKey g s = true ∨ s = d)
    (hrun : dijkstra g s d tc fuel = some (r, g')) : g' = g :=
  dijkstra_adj_spec hNN htc hs hrun

/-- C8 amended, witness on gBi. -/
theorem c8_adj_preserved_witness :
    NonNeg gBi ∧ (0 : Int) ≤ 0 ∧ (isKey gBi "A" = true ∨ "A" = "B") ∧
      dijkstra gBi "A" "B" 0 10 = some ((1, [("A", ""), ("B", "1")]), gBi) ∧ gBi = gBi :=
  ⟨by decide, by decide, Or.inl (by decide), by decide,
    c8_adj_preserved gBi gBi "A" "B" 0 10 (1, [("A", ""), ("B", "1")])
      (by decide) (by decide) (Or.inl (by decide)) (by decide)⟩

/-- C9: on the sample network, the query from Times Sq to Grand Central
with transfer penalty 2 returns cost 9 and the itinerary
[(Times Sq, ""), (42nd St, "1"), (Grand Central, "2")]. -/
theorem c9_sample_route :
    dijkstra buildSampleGraph "Times Sq" "Grand Central" 2 40 =
      some ((9, [("Times Sq", ""), ("42nd St", "1"), ("Grand Central", "2")]),
        buildSampleGraph) := by
  decide

/-- C10 counterexample: a negative edge cost is stored in the graph by
addEdge without any rejection, and dijkstra runs to a normal result with
a negative transfer penalty. -/
theorem c10_negative_inputs_accepted :
    addEdge [] "A" "B" (-5) "1" = [("A", [Edge.mk "B" (-5) "1"])] ∧
    dijkstra buildSampleGraph "Times Sq" "42nd St" (-1) 40 =
      some ((4, [("Times Sq", ""), ("42nd St", "1")]), buildSampleGraph) := by
  decide

/-- C10 amended: addEdge performs no validation at all: for every cost,
including negative ones, the edge is appended to the source station's
edge list unconditionally. -/
theorem c10_addEdge_unvalidated (g : AdjList) (src dst : String) (c : Int) (l : String) :
    lookupEdges (addEdge g src dst c l) src = lookupEdges g src ++ [Edge.mk dst c l] := by
  induction g with
  | nil => simp [addEdge, lookupEdges]
  | cons a rest ih =>
    obtain ⟨k, es⟩ := a
    by_cases hk : k = src
    · subst hk
      simp [addEdge, lookupEdges]
    · simp [addEdge, lookupEdges, hk, ih]
